import Mathlib

/-!
Verification of a TCP-like reliability protocol implemented on top of UDP
(`main.py`).  The development is a shallow embedding of the source:

* bytes are natural numbers below 256, byte strings are `List ℕ`;
* `TCPSegment` carries the wire-visible fields (`seq_number`, `ack_number`,
  `data`); the local-only bookkeeping fields (`acknowledged`,
  `_sending_time`) do not influence any verified property and are replaced
  by an explicit expiry oracle (`ConnState.expiry`) that answers the
  time-dependent `expired` test of `_resend_first_segment`;
* the connection object `MyTCPProtocol` becomes the record `ConnState`;
  the two `PriorityQueue`s are modelled as lists kept sorted by
  `seq_number` with `putW` as the insertion (`put`) operation and the head
  as the minimum (`get`);
* the UDP socket is modelled inside the state: `inbox` is the stream of
  datagram arrivals consumed by `recvfrom` (`none` is a timeout /
  socket-error event, `some d` a delivered datagram) and `outbox` collects
  every datagram passed to `sendto`.  `sendto` accepts each datagram whole,
  so it reports `16 + payload length` accepted bytes, as a UDP socket does;
* the `raise ValueError()` in `_send_segment` becomes the `Except.error`
  branch, whose carried value is the connection state at the moment of the
  raise;
* the unbounded `while` loops of `send` and `recv` take a fuel argument and
  return `none` when the fuel is exhausted.
-/

def maxDataSz : ℕ := 1024

def windowSz : ℕ := 4096

def maxLag : ℕ := 64

/-- Big-endian encoding of `n` on `w` bytes, as Python's
`int.to_bytes(w, "big")` produces for `n < 256 ^ w`. -/
def toBytesBE : ℕ → ℕ → List ℕ
  | 0, _ => []
  | w + 1, n => toBytesBE w (n / 256) ++ [n % 256]

/-- Big-endian decoding, as Python's `int.from_bytes(_, "big")`; the empty
list decodes to 0, exactly as in Python. -/
def fromBytesBE (l : List ℕ) : ℕ :=
  l.foldl (fun a b => 256 * a + b) 0

/-- Wire-visible part of `TCPSegment` from the source. -/
structure TCPSegment where
  seq_number : ℕ
  ack_number : ℕ
  data : List ℕ
deriving DecidableEq

/-- `TCPSegment.dump`: 8-byte big-endian sequence number, 8-byte big-endian
acknowledgment number, then the raw payload. -/
def TCPSegment.dump (s : TCPSegment) : List ℕ :=
  toBytesBE 8 s.seq_number ++ toBytesBE 8 s.ack_number ++ s.data

/-- `TCPSegment.load`: slices `data[:8]`, `data[8:16]`, `data[16:]`.  All
three Python slices are total, also on inputs shorter than 16 bytes, so the
function is total. -/
def TCPSegment.load (d : List ℕ) : TCPSegment :=
  { seq_number := fromBytesBE (d.take 8)
    ack_number := fromBytesBE ((d.drop 8).take 8)
    data := d.drop 16 }

/-- Modelled from the spec: the spec's `decode(bytes) -> Segment` of §4.1,
which "fails with `FramingError` if the input is shorter than 16 bytes;
otherwise slices header fields and treats the remainder as payload
verbatim".  The failure case is missing from the source (`TCPSegment.load`
is total), so this definition follows the spec's words, to be compared
with the source decoder. -/
def decodeSpec (d : List ℕ) : Option TCPSegment :=
  if d.length < 16 then none
  else
    some { seq_number := fromBytesBE (d.take 8)
           ack_number := fromBytesBE ((d.drop 8).take 8)
           data := d.drop 16 }

theorem toBytesBE_length (w n : ℕ) : (toBytesBE w n).length = w := by
  induction w generalizing n with
  | zero => rfl
  | succ w ih => simp [toBytesBE, ih]

theorem fromBytesBE_append_one (l : List ℕ) (b : ℕ) :
    fromBytesBE (l ++ [b]) = 256 * fromBytesBE l + b := by
  simp [fromBytesBE]

theorem fromBytesBE_toBytesBE (w n : ℕ) (h : n < 256 ^ w) :
    fromBytesBE (toBytesBE w n) = n := by
  induction w generalizing n with
  | zero =>
    interval_cases n
    rfl
  | succ w ih =>
    have hdiv : n / 256 < 256 ^ w := by
      rw [Nat.div_lt_iff_lt_mul (by norm_num)]
      calc n < 256 ^ (w + 1) := h
        _ = 256 ^ w * 256 := by ring
    rw [toBytesBE, fromBytesBE_append_one, ih _ hdiv]
    exact Nat.div_add_mod n 256

theorem take_eight_dump (s : TCPSegment) :
    (TCPSegment.dump s).take 8 = toBytesBE 8 s.seq_number := by
  rw [TCPSegment.dump, List.append_assoc, List.take_append_of_le_length
    (by rw [toBytesBE_length]), List.take_of_length_le (by rw [toBytesBE_length])]

theorem drop_eight_dump (s : TCPSegment) :
    (TCPSegment.dump s).drop 8 = toBytesBE 8 s.ack_number ++ s.data := by
  rw [TCPSegment.dump, List.append_assoc,
    List.drop_append_of_le_length (by rw [toBytesBE_length]),
    List.drop_of_length_le (by rw [toBytesBE_length]), List.nil_append]

/-- Claim C8: for every segment with sequence number and acknowledgment
number in `[0, 2^64)` and payload length in `[0, 1024]`,
`TCPSegment.load (TCPSegment.dump seg)` recovers the same sequence number,
acknowledgment number and payload. -/
theorem dump_load_roundtrip (seg : TCPSegment)
    (h1 : seg.seq_number < 2 ^ 64) (h2 : seg.ack_number < 2 ^ 64)
    (h3 : seg.data.length ≤ 1024) :
    TCPSegment.load seg.dump = seg := by
  have h64 : (2 : ℕ) ^ 64 = 256 ^ 8 := by norm_num
  have hseq : seg.seq_number < 256 ^ 8 := h64 ▸ h1
  have hack : seg.ack_number < 256 ^ 8 := h64 ▸ h2
  have hdrop16 : (TCPSegment.dump seg).drop 16 = seg.data := by
    have : (TCPSegment.dump seg).drop 16 = ((TCPSegment.dump seg).drop 8).drop 8 := by
      rw [List.drop_drop]
    rw [this, drop_eight_dump,
      List.drop_append_of_le_length (by rw [toBytesBE_length]),
      List.drop_of_length_le (by rw [toBytesBE_length]), List.nil_append]
  have htake : ((TCPSegment.dump seg).drop 8).take 8 = toBytesBE 8 seg.ack_number := by
    rw [drop_eight_dump, List.take_append_of_le_length (by rw [toBytesBE_length]),
      List.take_of_length_le (by rw [toBytesBE_length])]
  cases seg with
  | mk sq ak da =>
    simp only [TCPSegment.load, take_eight_dump, htake, hdrop16]
    simp only at hseq hack
    rw [fromBytesBE_toBytesBE 8 sq hseq, fromBytesBE_toBytesBE 8 ak hack]

theorem dump_load_roundtrip_witness :
    TCPSegment.load (TCPSegment.dump ⟨3, 5, [7, 9]⟩) = ⟨3, 5, [7, 9]⟩ :=
  dump_load_roundtrip ⟨3, 5, [7, 9]⟩ (by norm_num) (by norm_num) (by norm_num)

/-- Claim C2, counterexample: on a 15-byte input the source decoder
`TCPSegment.load` does not fail — it produces a segment (with the
truncated header misparsed and an empty payload) — while the spec's
decoder rejects the input. -/
theorem load_short_input_misparsed :
    TCPSegment.load (List.replicate 15 0) = { seq_number := 0, ack_number := 0, data := [] } ∧
    decodeSpec (List.replicate 15 0) = none := by
  constructor
  · rfl
  · rfl

/-- Claim C2, amended: `TCPSegment.load` never fails; on every input of
length at least 16 it agrees with the spec's decoder (header fields sliced,
payload is the input after offset 16, verbatim), while shorter inputs are
misparsed into a segment instead of being rejected. -/
theorem decode_agrees_on_framed_input (d : List ℕ) (h : 16 ≤ d.length) :
    decodeSpec d = some (TCPSegment.load d) := by
  rw [decodeSpec, if_neg (by omega)]
  rfl

theorem decode_agrees_on_framed_input_witness :
    decodeSpec (List.replicate 20 1) = some (TCPSegment.load (List.replicate 20 1)) :=
  decode_agrees_on_framed_input (List.replicate 20 1) (by simp)

/-- The mutable state of one `MyTCPProtocol` connection, together with the
modelled socket (`inbox`/`outbox`) and the expiry oracle that answers the
time-dependent `TCPSegment.expired` test. -/
structure ConnState where
  sent_bytes_cnt : ℕ
  delivered_bytes_cnt : ℕ
  received_bytes_cnt : ℕ
  send_window : List TCPSegment
  recv_window : List TCPSegment
  buffer : List ℕ
  inbox : List (Option (List ℕ))
  outbox : List (List ℕ)
  expiry : List Bool
deriving DecidableEq

/-- `PriorityQueue.put` on a list kept sorted by `seq_number` ascending;
`get` is taking the head. -/
def putW (seg : TCPSegment) : List TCPSegment → List TCPSegment
  | [] => [seg]
  | t :: ts => if seg.seq_number < t.seq_number then seg :: t :: ts else t :: putW seg ts

/-- The tail of `_send_segment`: `if len(segment): segment.data =
segment.data[:sent_length]; self._send_window.put(...)`. -/
def storeSent (seg : TCPSegment) (sentLength : ℕ) (s : ConnState) : ConnState :=
  if seg.data = [] then s
  else { s with send_window := putW { seg with data := seg.data.take sentLength } s.send_window }

/-- `_send_segment`.  `sendto` accepts the whole datagram, so
`sent_length = len(segment.dump()) - 16 = len(segment.data)`.  The Python
order is kept: the datagram goes to the socket first, then the
sequence-number check runs (`raise ValueError()` maps to `Except.error`
carrying the state at the raise), then the segment is stored in the send
window. -/
def send_segment (seg : TCPSegment) (s : ConnState) : Except ConnState (ℕ × ConnState) :=
  let sentLength := seg.data.length
  let s0 : ConnState := { s with outbox := s.outbox ++ [seg.dump] }
  if seg.seq_number = s0.sent_bytes_cnt then
    Except.ok (sentLength,
      storeSent seg sentLength { s0 with sent_bytes_cnt := s0.sent_bytes_cnt + sentLength })
  else if s0.sent_bytes_cnt < seg.seq_number then
    Except.error s0
  else
    Except.ok (sentLength, storeSent seg sentLength s0)

/-- The `while` loop of `_shift_send_window`: pop entries whose
`seq_number` is below `delivered_bytes_cnt`; the first entry at or above it
is pushed back and the loop stops. -/
def pruneSendW (delivered : ℕ) : List TCPSegment → List TCPSegment
  | [] => []
  | t :: ts => if delivered ≤ t.seq_number then putW t ts else pruneSendW delivered ts

def shift_send_window (s : ConnState) : ConnState :=
  { s with send_window := pruneSendW s.delivered_bytes_cnt s.send_window }

/-- The `while` loop of `_shift_recv_window`: returns the remaining receive
window, the bytes appended to the delivery buffer, and the new
`received_bytes_cnt`.  Entries below the cursor are dropped (only their
local `acknowledged` flag, which no verified property observes, is set in
the source); the entry at the cursor is delivered; a gap pushes the entry
back and stops. -/
def shiftRecvLoop : ℕ → List TCPSegment → List TCPSegment × List ℕ × ℕ
  | received, [] => ([], [], received)
  | received, t :: ts =>
    if t.seq_number < received then shiftRecvLoop received ts
    else if t.seq_number = received then
      let r := shiftRecvLoop (received + t.data.length) ts
      (r.1, t.data ++ r.2.1, r.2.2)
    else (putW t ts, [], received)

/-- `_shift_recv_window`.  When at least one entry was popped
(`first_segment is not None`, i.e. the window was non-empty), an empty
acknowledgment segment is sent through `_send_segment`; that call has
`seq_number = sent_bytes_cnt`, so it cannot raise, and the `match` arm for
`Except.error` is dead. -/
def shift_recv_window (s : ConnState) : ConnState :=
  match s.recv_window with
  | [] => s
  | _ :: _ =>
    let r := shiftRecvLoop s.received_bytes_cnt s.recv_window
    let s1 : ConnState :=
      { s with recv_window := r.1, buffer := s.buffer ++ r.2.1, received_bytes_cnt := r.2.2 }
    match send_segment
        { seq_number := s1.sent_bytes_cnt, ack_number := s1.received_bytes_cnt, data := [] } s1 with
    | Except.ok p => p.2
    | Except.error e => e

/-- The payload half of `_receive_segment`: `if len(segment):` insert the
segment into the receive window and run `_shift_recv_window`. -/
def receive_payload_step (seg : TCPSegment) (s : ConnState) : ConnState :=
  if seg.data = [] then s
  else shift_recv_window { s with recv_window := putW seg s.recv_window }

/-- The acknowledgment half of `_receive_segment`: `if segment.ack_number >
self._delivered_bytes_cnt:` advance the delivered cursor and run
`_shift_send_window`. -/
def receive_ack_step (seg : TCPSegment) (s : ConnState) : ConnState :=
  if s.delivered_bytes_cnt < seg.ack_number then
    shift_send_window { s with delivered_bytes_cnt := seg.ack_number }
  else s

/-- `_receive_segment`.  An empty `inbox` or a `none` entry is a
timeout / socket error (`return False`, no state change beyond consuming
the event); a `some d` entry is the received datagram, which goes through
the payload step and then the acknowledgment step. -/
def receive_segment (s : ConnState) : Bool × ConnState :=
  match s.inbox with
  | [] => (false, s)
  | none :: rest => (false, { s with inbox := rest })
  | some d :: rest =>
    (true, receive_ack_step (TCPSegment.load d)
      (receive_payload_step (TCPSegment.load d) { s with inbox := rest }))

/-- `_resend_first_segment`.  The oldest in-flight segment is popped; the
time-dependent `expired` test is answered by the head of the expiry
oracle (an exhausted oracle answers: not expired).  An expired segment is
resent through `_send_segment` (which re-stores it); a fresh one is pushed
back. -/
def resend_first_segment (s : ConnState) : Except ConnState ConnState :=
  match s.send_window with
  | [] => Except.ok s
  | t :: ts =>
    match s.expiry with
    | [] => Except.ok { s with send_window := putW t ts }
    | e :: es =>
      if e then
        match send_segment t { s with send_window := ts, expiry := es } with
        | Except.ok p => Except.ok p.2
        | Except.error err => Except.error err
      else Except.ok { s with send_window := putW t ts, expiry := es }

/-- The `while` loop of `send`, with fuel.  `data` is the remaining payload,
`acc` is `sent_data_len`, `lag` the consecutive-timeout counter.  A raise
inside `_send_segment` (directly or through `_resend_first_segment`)
propagates as `Except.error`. -/
def sendLoop : ℕ → List ℕ → ℕ → ℕ → ConnState → Option (Except ConnState (ℕ × ConnState))
  | 0, _, _, _, _ => none
  | fuel + 1, data, acc, lag, s =>
    if lag < maxLag ∧ (data ≠ [] ∨ s.delivered_bytes_cnt < s.sent_bytes_cnt) then
      if s.sent_bytes_cnt - s.delivered_bytes_cnt ≤ windowSz ∧ data ≠ [] then
        match send_segment
            { seq_number := s.sent_bytes_cnt, ack_number := s.received_bytes_cnt
              data := data.take maxDataSz } s with
        | Except.error e => some (Except.error e)
        | Except.ok p =>
          match resend_first_segment p.2 with
          | Except.error e => some (Except.error e)
          | Except.ok s2 => sendLoop fuel (data.drop p.1) (acc + p.1) lag s2
      else
        match resend_first_segment (receive_segment s).2 with
        | Except.error e => some (Except.error e)
        | Except.ok s2 =>
          sendLoop fuel data acc (if (receive_segment s).1 then 0 else lag + 1) s2
    else some (Except.ok (acc, s))

/-- The `while` loop of `recv`, with fuel: drain
`min(data_sz, len(buffer))` bytes from the buffer, then block on
`_receive_segment` when still short. -/
def recvLoop : ℕ → ℕ → List ℕ → ConnState → Option (List ℕ × ConnState)
  | 0, _, _, _ => none
  | fuel + 1, data_sz, data, s =>
    if data.length < data_sz then
      let rightBorder := min data_sz s.buffer.length
      let data1 := data ++ s.buffer.take rightBorder
      let s1 : ConnState := { s with buffer := s.buffer.drop rightBorder }
      if data1.length < data_sz then
        recvLoop fuel data_sz data1 (receive_segment s1).2
      else recvLoop fuel data_sz data1 s1
    else some (data, s)

/-- The state of a freshly constructed `MyTCPProtocol` (all counters zero,
all structures empty), with an empty modelled network. -/
def initState : ConnState :=
  { sent_bytes_cnt := 0, delivered_bytes_cnt := 0, received_bytes_cnt := 0
    send_window := [], recv_window := [], buffer := []
    inbox := [], outbox := [], expiry := [] }

theorem shift_recv_window_facts (s : ConnState) :
    (shift_recv_window s).sent_bytes_cnt = s.sent_bytes_cnt ∧
    (shift_recv_window s).delivered_bytes_cnt = s.delivered_bytes_cnt ∧
    (shift_recv_window s).send_window = s.send_window ∧
    (shift_recv_window s).inbox = s.inbox := by
  cases h : s.recv_window with
  | nil => simp [shift_recv_window, h]
  | cons t ts => simp [shift_recv_window, h, send_segment, storeSent]

theorem shift_send_window_facts (s : ConnState) :
    (shift_send_window s).sent_bytes_cnt = s.sent_bytes_cnt ∧
    (shift_send_window s).delivered_bytes_cnt = s.delivered_bytes_cnt ∧
    (shift_send_window s).inbox = s.inbox := by
  simp [shift_send_window]

theorem receive_payload_step_facts (seg : TCPSegment) (s : ConnState) :
    (receive_payload_step seg s).sent_bytes_cnt = s.sent_bytes_cnt ∧
    (receive_payload_step seg s).delivered_bytes_cnt = s.delivered_bytes_cnt ∧
    (receive_payload_step seg s).send_window = s.send_window ∧
    (receive_payload_step seg s).inbox = s.inbox := by
  rw [receive_payload_step]
  split
  · exact ⟨rfl, rfl, rfl, rfl⟩
  · exact shift_recv_window_facts { s with recv_window := putW seg s.recv_window }

def exceptOk {α β : Type} : Except α β → Bool
  | Except.ok _ => true
  | Except.error _ => false

/-- Claim C9: transmitting a segment whose sequence number is strictly
ahead of `sent_bytes_cnt` raises (`Except.error`), with the raising state
showing that no cursor and no window was touched — only the datagram had
already reached the socket; a segment at or below the cursor never raises. -/
theorem send_segment_seq_guard (seg : TCPSegment) (s : ConnState) :
    (s.sent_bytes_cnt < seg.seq_number →
      send_segment seg s = Except.error { s with outbox := s.outbox ++ [seg.dump] }) ∧
    (seg.seq_number ≤ s.sent_bytes_cnt →
      exceptOk (send_segment seg s) = true) := by
  constructor
  · intro h
    simp only [send_segment]
    rw [if_neg (by simpa using (by omega : ¬ seg.seq_number = s.sent_bytes_cnt)),
      if_pos (by simpa using h)]
  · intro h
    by_cases he : seg.seq_number = s.sent_bytes_cnt
    · simp only [send_segment]
      rw [if_pos (by simpa using he)]
      rfl
    · simp only [send_segment]
      rw [if_neg (by simpa using he),
        if_neg (by simpa using (by omega : ¬ s.sent_bytes_cnt < seg.seq_number))]
      rfl

theorem send_segment_seq_guard_witness :
    (send_segment ⟨5, 0, []⟩ initState =
      Except.error { initState with outbox := initState.outbox ++ [TCPSegment.dump ⟨5, 0, []⟩] }) ∧
    (exceptOk (send_segment ⟨0, 0, [1]⟩ initState) = true) :=
  ⟨(send_segment_seq_guard ⟨5, 0, []⟩ initState).1 (by decide),
   (send_segment_seq_guard ⟨0, 0, [1]⟩ initState).2 (by decide)⟩

/-- Claim C7: when every segment held in the receive window lies strictly
beyond the contiguous frontier `received_bytes_cnt` (a gap is open below
all of them), `_shift_recv_window` releases nothing: the delivery buffer
and the frontier are unchanged.  Bytes of a later range therefore never
appear in the delivery buffer before the gap below them is filled. -/
theorem no_out_of_order_release (s : ConnState)
    (h : ∀ seg ∈ s.recv_window, s.received_bytes_cnt < seg.seq_number) :
    (shift_recv_window s).buffer = s.buffer ∧
    (shift_recv_window s).received_bytes_cnt = s.received_bytes_cnt := by
  cases hw : s.recv_window with
  | nil => simp [shift_recv_window, hw]
  | cons t ts =>
    have ht : s.received_bytes_cnt < t.seq_number := h t (hw ▸ List.mem_cons_self t ts)
    simp [shift_recv_window, hw, shiftRecvLoop, Nat.lt_asymm ht, (Nat.ne_of_lt ht).symm,
      send_segment, storeSent]

def c7state : ConnState :=
  { initState with received_bytes_cnt := 10, recv_window := [⟨20, 0, [1, 2]⟩], buffer := [9] }

theorem no_out_of_order_release_witness :
    (shift_recv_window c7state).buffer = c7state.buffer ∧
    (shift_recv_window c7state).received_bytes_cnt = c7state.received_bytes_cnt :=
  no_out_of_order_release c7state (by decide)

/-- Claim C10: with no bytes in flight (`delivered_bytes_cnt ≥
sent_bytes_cnt`), `send` of the empty byte string returns 0 at once with
the state untouched — the loop guard is false on entry, so no datagram is
sent or received and every cursor, window and the delivery buffer is
exactly as before. -/
theorem send_empty_noop (fuel : ℕ) (s : ConnState)
    (h : s.sent_bytes_cnt ≤ s.delivered_bytes_cnt) :
    sendLoop (fuel + 1) [] 0 0 s = some (Except.ok (0, s)) := by
  rw [sendLoop, if_neg]
  rintro ⟨-, h2 | h3⟩
  · exact h2 rfl
  · omega

theorem send_empty_noop_witness :
    sendLoop 1 [] 0 0 initState = some (Except.ok (0, initState)) :=
  send_empty_noop 0 initState (by decide)

def c1dgram1 : List ℕ := TCPSegment.dump { seq_number := 0, ack_number := 0, data := [97] }

def c1dgram2 : List ℕ := TCPSegment.dump { seq_number := 1, ack_number := 0, data := [98, 99] }

def c1state : ConnState := { initState with inbox := [some c1dgram1, some c1dgram2] }

/-- Claim C1 (code bug): `recv 2` on a fresh connection whose socket
delivers a 1-byte in-order segment and then a 2-byte in-order segment
returns 3 bytes, not 2.  Each loop iteration drains
`min(data_sz, len(buffer))` bytes without subtracting the bytes already
taken, so the final drain overshoots the request. -/
theorem recv_overread :
    (recvLoop 8 2 [] c1state).map (fun p => p.1) = some [97, 98, 99] := by
  rfl

def forgedAck : List ℕ := toBytesBE 8 0 ++ toBytesBE 8 5

def c3state : ConnState := { initState with inbox := [some forgedAck] }

/-- Claim C3, counterexample: a fresh connection (`sent_bytes_cnt = 0`)
that processes one incoming datagram carrying acknowledgment number 5 ends
with `delivered_bytes_cnt = 5 > 0 = sent_bytes_cnt`: `_receive_segment`
copies any larger acknowledgment number into the delivered cursor without
checking it against the sent cursor, so the invariant fails for arbitrary
incoming datagrams. -/
theorem delivered_exceeds_sent_on_forged_ack :
    ¬ ((receive_segment c3state).2.delivered_bytes_cnt ≤
        (receive_segment c3state).2.sent_bytes_cnt) := by
  decide

/-- Claim C3, amended: `delivered_cursor ≤ sent_cursor` is preserved when
the processed incoming datagram carries an acknowledgment number that does
not exceed `sent_bytes_cnt` (as every datagram from a faithful peer does);
a datagram acknowledging beyond the sent cursor breaks the invariant. -/
theorem delivered_le_sent_after_bounded_ack (s : ConnState) (d : List ℕ)
    (rest : List (Option (List ℕ))) (hin : s.inbox = some d :: rest)
    (h1 : s.delivered_bytes_cnt ≤ s.sent_bytes_cnt)
    (h2 : (TCPSegment.load d).ack_number ≤ s.sent_bytes_cnt) :
    (receive_segment s).2.delivered_bytes_cnt ≤ (receive_segment s).2.sent_bytes_cnt := by
  obtain ⟨p1, p2, -, -⟩ :=
    receive_payload_step_facts (TCPSegment.load d) { s with inbox := rest }
  simp only [receive_segment, hin]
  rw [receive_ack_step]
  split
  · simpa [shift_send_window, p1] using h2
  · simp only [p1, p2]
    exact h1

def c3wstate : ConnState :=
  { initState with sent_bytes_cnt := 7, delivered_bytes_cnt := 3,
                   inbox := [some (List.replicate 16 0)] }

theorem delivered_le_sent_after_bounded_ack_witness :
    (receive_segment c3wstate).2.delivered_bytes_cnt ≤
      (receive_segment c3wstate).2.sent_bytes_cnt :=
  delivered_le_sent_after_bounded_ack c3wstate (List.replicate 16 0) [] rfl
    (by decide) (by decide)

theorem putW_mem (x seg : TCPSegment) (l : List TCPSegment) :
    seg ∈ putW x l ↔ seg = x ∨ seg ∈ l := by
  induction l with
  | nil => simp [putW]
  | cons t ts ih =>
    simp only [putW]
    split
    · simp [List.mem_cons]
    · simp only [List.mem_cons, ih]
      tauto

theorem pruneSendW_mem (dl : ℕ) (l : List TCPSegment) (seg : TCPSegment)
    (h : seg ∈ pruneSendW dl l) : seg ∈ l := by
  induction l with
  | nil => simp [pruneSendW] at h
  | cons t ts ih =>
    simp only [pruneSendW] at h
    split at h
    · rw [putW_mem] at h
      simpa [List.mem_cons] using h
    · exact List.mem_cons_of_mem t (ih h)

/-- The window invariant of the connection state: in-flight bytes do not
exceed `window_sz` by more than one segment (`max_data_sz`), and every
segment stored in the send window lies entirely below the sent cursor (it
was carved at the then-current cursor, which then advanced past it). -/
def winInv (s : ConnState) : Prop :=
  s.sent_bytes_cnt ≤ s.delivered_bytes_cnt + windowSz + maxDataSz ∧
  ∀ seg ∈ s.send_window, seg.seq_number + seg.data.length ≤ s.sent_bytes_cnt

theorem winInv_mk (u v : ConnState) (h1 : v.sent_bytes_cnt = u.sent_bytes_cnt)
    (h2 : v.delivered_bytes_cnt = u.delivered_bytes_cnt)
    (h3 : v.send_window = u.send_window) (h : winInv u) : winInv v := by
  unfold winInv at *
  rw [h1, h2, h3]
  exact h

theorem storeSent_facts (seg : TCPSegment) (n : ℕ) (s : ConnState) :
    (storeSent seg n s).sent_bytes_cnt = s.sent_bytes_cnt ∧
    (storeSent seg n s).delivered_bytes_cnt = s.delivered_bytes_cnt ∧
    (storeSent seg n s).received_bytes_cnt = s.received_bytes_cnt ∧
    (storeSent seg n s).inbox = s.inbox := by
  unfold storeSent
  split <;> simp

theorem send_segment_ok_facts (seg : TCPSegment) (s : ConnState) (p : ℕ × ConnState)
    (h : send_segment seg s = Except.ok p) :
    s.sent_bytes_cnt ≤ p.2.sent_bytes_cnt ∧
    p.2.delivered_bytes_cnt = s.delivered_bytes_cnt ∧
    p.2.inbox = s.inbox := by
  simp only [send_segment] at h
  split at h
  · rw [Except.ok.injEq] at h
    subst h
    obtain ⟨e1, e2, -, e4⟩ := storeSent_facts seg seg.data.length
      { s with outbox := s.outbox ++ [seg.dump],
               sent_bytes_cnt := s.sent_bytes_cnt + seg.data.length }
    refine ⟨?_, ?_, ?_⟩ <;> simp [e1, e2, e4]
  · split at h
    · exact absurd h (by simp)
    · rw [Except.ok.injEq] at h
      subst h
      obtain ⟨e1, e2, -, e4⟩ := storeSent_facts seg seg.data.length
        { s with outbox := s.outbox ++ [seg.dump] }
      refine ⟨?_, ?_, ?_⟩ <;> simp [e1, e2, e4]

theorem send_segment_carve (a : ℕ) (d : List ℕ) (s : ConnState) :
    send_segment { seq_number := s.sent_bytes_cnt, ack_number := a, data := d } s =
      Except.ok (d.length,
        storeSent { seq_number := s.sent_bytes_cnt, ack_number := a, data := d } d.length
          { s with outbox := s.outbox ++ [TCPSegment.dump ⟨s.sent_bytes_cnt, a, d⟩],
                   sent_bytes_cnt := s.sent_bytes_cnt + d.length }) := by
  simp only [send_segment]
  rw [if_pos (by simp)]

theorem winInv_carve (s : ConnState) (a : ℕ) (d : List ℕ)
    (hb : s.sent_bytes_cnt ≤ s.delivered_bytes_cnt + windowSz)
    (hwin : ∀ seg ∈ s.send_window, seg.seq_number + seg.data.length ≤ s.sent_bytes_cnt)
    (hd : d.length ≤ maxDataSz) :
    winInv (storeSent { seq_number := s.sent_bytes_cnt, ack_number := a, data := d } d.length
      { s with outbox := s.outbox ++ [TCPSegment.dump ⟨s.sent_bytes_cnt, a, d⟩],
               sent_bytes_cnt := s.sent_bytes_cnt + d.length }) := by
  unfold storeSent winInv
  split
  · constructor
    · simp
      omega
    · intro seg hseg
      simp only at hseg ⊢
      exact le_trans (hwin seg hseg) (Nat.le_add_right _ _)
  · constructor
    · simp
      omega
    · intro seg hseg
      simp only [putW_mem, List.take_length] at hseg
      rcases hseg with rfl | hseg
      · simp
      · simp only
        exact le_trans (hwin seg hseg) (Nat.le_add_right _ _)

theorem resend_ok (s : ConnState) (hw : winInv s) :
    ∃ s2, resend_first_segment s = Except.ok s2 := by
  obtain ⟨hb, hwin⟩ := hw
  unfold resend_first_segment
  cases hsw : s.send_window with
  | nil => exact ⟨s, rfl⟩
  | cons t ts =>
    have htm : t.seq_number + t.data.length ≤ s.sent_bytes_cnt := by
      refine hwin t ?_
      rw [hsw]
      exact List.mem_cons_self t ts
    cases hex : s.expiry with
    | nil => exact ⟨_, rfl⟩
    | cons e es =>
      cases e with
      | false => exact ⟨_, rfl⟩
      | true =>
        have hok := (send_segment_seq_guard t { s with send_window := ts, expiry := es }).2
          (by simpa using (by omega : t.seq_number ≤ s.sent_bytes_cnt))
        cases hss : send_segment t { s with send_window := ts, expiry := es } with
        | ok p =>
          refine ⟨p.2, ?_⟩
          simp [hss]
        | error err =>
          rw [hss] at hok
          simp [exceptOk] at hok

theorem resend_preserves (s s2 : ConnState) (h : resend_first_segment s = Except.ok s2)
    (hw : winInv s) :
    s2.sent_bytes_cnt = s.sent_bytes_cnt ∧
    s2.delivered_bytes_cnt = s.delivered_bytes_cnt ∧
    s2.received_bytes_cnt = s.received_bytes_cnt ∧
    s2.inbox = s.inbox ∧ winInv s2 := by
  obtain ⟨hb, hwin⟩ := hw
  unfold resend_first_segment at h
  split at h
  · rw [Except.ok.injEq] at h
    subst h
    exact ⟨rfl, rfl, rfl, rfl, hb, hwin⟩
  · rename_i t ts hsw
    have htm : t.seq_number + t.data.length ≤ s.sent_bytes_cnt := by
      refine hwin t ?_
      rw [hsw]
      exact List.mem_cons_self t ts
    have hrest : ∀ seg ∈ ts, seg.seq_number + seg.data.length ≤ s.sent_bytes_cnt := by
      intro seg hseg
      refine hwin seg ?_
      rw [hsw]
      exact List.mem_cons_of_mem t hseg
    have hput : ∀ seg ∈ putW t ts, seg.seq_number + seg.data.length ≤ s.sent_bytes_cnt := by
      intro seg hseg
      rw [putW_mem] at hseg
      rcases hseg with rfl | hseg
      · exact htm
      · exact hrest seg hseg
    split at h
    · rw [Except.ok.injEq] at h
      subst h
      exact ⟨rfl, rfl, rfl, rfl, hb, hput⟩
    · rename_i e es hex
      split at h
      · split at h
        · rename_i p hss
          rw [Except.ok.injEq] at h
          subst h
          by_cases hteq : t.seq_number = s.sent_bytes_cnt
          · have hdat : t.data = [] := by
              rw [← List.length_eq_zero]
              omega
            simp only [send_segment] at hss
            rw [if_pos (by simpa using hteq)] at hss
            rw [Except.ok.injEq] at hss
            subst hss
            rw [storeSent, if_pos hdat]
            refine ⟨by simp [hdat], rfl, rfl, rfl, ?_, ?_⟩
            · simp [hdat]
              omega
            · intro seg hseg
              simp only at hseg ⊢
              simp only [hdat, List.length_nil, Nat.add_zero]
              exact hrest seg hseg
          · have htlt : t.seq_number < s.sent_bytes_cnt := by omega
            simp only [send_segment] at hss
            rw [if_neg (by simpa using hteq),
              if_neg (by simpa using Nat.not_lt.mpr (le_of_lt htlt))] at hss
            rw [Except.ok.injEq] at hss
            subst hss
            rw [storeSent]
            split
            · exact ⟨rfl, rfl, rfl, rfl, hb, by simpa using hrest⟩
            · have hteta : ({ t with data := t.data.take t.data.length } : TCPSegment) = t := by
                rw [List.take_length]
              rw [hteta]
              refine ⟨rfl, rfl, rfl, rfl, hb, ?_⟩
              intro seg hseg
              simp only [putW_mem] at hseg
              rcases hseg with rfl | hseg
              · simpa using htm
              · simpa using hrest seg hseg
        · exact absurd h (by simp)
      · rw [Except.ok.injEq] at h
        subst h
        exact ⟨rfl, rfl, rfl, rfl, hb, hput⟩

theorem resend_mono (s s2 : ConnState) (h : resend_first_segment s = Except.ok s2) :
    s.sent_bytes_cnt ≤ s2.sent_bytes_cnt ∧
    s2.delivered_bytes_cnt = s.delivered_bytes_cnt := by
  unfold resend_first_segment at h
  split at h
  · rw [Except.ok.injEq] at h
    subst h
    exact ⟨le_refl _, rfl⟩
  · rename_i t ts hsw
    split at h
    · rw [Except.ok.injEq] at h
      subst h
      exact ⟨le_refl _, rfl⟩
    · split at h
      · split at h
        · rename_i p hss
          rw [Except.ok.injEq] at h
          subst h
          obtain ⟨f1, f2, -⟩ := send_segment_ok_facts _ _ _ hss
          exact ⟨by simpa using f1, by simpa using f2⟩
        · exact absurd h (by simp)
      · rw [Except.ok.injEq] at h
        subst h
        exact ⟨le_refl _, rfl⟩

theorem winInv_shift_send (s : ConnState) (a : ℕ) (h : winInv s)
    (ha : s.delivered_bytes_cnt ≤ a) :
    winInv (shift_send_window { s with delivered_bytes_cnt := a }) := by
  obtain ⟨hb, hwin⟩ := h
  constructor
  · simp only [shift_send_window]
    omega
  · intro seg hseg
    simp only [shift_send_window] at hseg ⊢
    exact hwin seg (pruneSendW_mem _ _ _ hseg)

theorem receive_payload_winInv (seg : TCPSegment) (s : ConnState) (h : winInv s) :
    winInv (receive_payload_step seg s) := by
  obtain ⟨g1, g2, g3, -⟩ := receive_payload_step_facts seg s
  exact winInv_mk s _ g1 g2 g3 h

theorem receive_ack_winInv (seg : TCPSegment) (s : ConnState) (h : winInv s) :
    winInv (receive_ack_step seg s) := by
  rw [receive_ack_step]
  split
  · rename_i hack
    exact winInv_shift_send s seg.ack_number h (le_of_lt hack)
  · exact h

theorem receive_winInv (s : ConnState) (hw : winInv s) : winInv (receive_segment s).2 := by
  unfold receive_segment
  split
  · exact hw
  · exact winInv_mk s _ rfl rfl rfl hw
  · exact receive_ack_winInv _ _ (receive_payload_winInv _ _ (winInv_mk s _ rfl rfl rfl hw))

theorem receive_false_facts (s : ConnState) (h : (receive_segment s).1 = false) :
    (receive_segment s).2.sent_bytes_cnt = s.sent_bytes_cnt ∧
    (receive_segment s).2.delivered_bytes_cnt = s.delivered_bytes_cnt ∧
    (receive_segment s).2.send_window = s.send_window := by
  cases hin : s.inbox with
  | nil => simp [receive_segment, hin]
  | cons o rest =>
    cases o with
    | none => simp [receive_segment, hin]
    | some d =>
      simp only [receive_segment, hin] at h
      simp at h

theorem sendLoop_winInv (fuel : ℕ) : ∀ data acc lag s r s2,
    winInv s → sendLoop fuel data acc lag s = some (Except.ok (r, s2)) → winInv s2 := by
  induction fuel with
  | zero =>
    intro data acc lag s r s2 hw h
    simp [sendLoop] at h
  | succ fuel ih =>
    intro data acc lag s r s2 hw h
    simp only [sendLoop] at h
    split at h
    · split at h
      · rename_i hguard hcond
        split at h
        · exact absurd h (by simp)
        · rename_i p hss
          rw [send_segment_carve] at hss
          rw [Except.ok.injEq] at hss
          subst hss
          split at h
          · exact absurd h (by simp)
          · rename_i s3 hres
            have hS1 : winInv (storeSent
                { seq_number := s.sent_bytes_cnt, ack_number := s.received_bytes_cnt,
                  data := data.take maxDataSz } (data.take maxDataSz).length
                { s with
                    outbox := s.outbox ++
                      [TCPSegment.dump ⟨s.sent_bytes_cnt, s.received_bytes_cnt,
                        data.take maxDataSz⟩],
                    sent_bytes_cnt := s.sent_bytes_cnt + (data.take maxDataSz).length }) := by
              refine winInv_carve s s.received_bytes_cnt (data.take maxDataSz) ?_ hw.2 ?_
              · have := hcond.1
                omega
              · rw [List.length_take]
                exact min_le_left _ _
            have hwin3 := (resend_preserves _ _ hres hS1).2.2.2.2
            exact ih _ _ _ _ _ _ hwin3 h
      · split at h
        · exact absurd h (by simp)
        · rename_i s3 hres
          have h1 : winInv (receive_segment s).2 := receive_winInv s hw
          have hwin3 := (resend_preserves _ _ hres h1).2.2.2.2
          exact ih _ _ _ _ _ _ hwin3 h
    · simp only [Option.some.injEq, Except.ok.injEq, Prod.mk.injEq] at h
      obtain ⟨-, rfl⟩ := h
      exact hw

/-- Claim C6: after any terminating `send` call (any payload, any pattern
of acknowledgment arrivals and timeouts in the inbox, any expiry-oracle
answers), a state satisfying the window invariant ends with
`sent_bytes_cnt - delivered_bytes_cnt ≤ window_sz + max_data_sz`: new
payload is carved only while the in-flight byte count is within
`window_sz`, and one segment of at most `max_data_sz` bytes may overshoot. -/
theorem window_bound_after_send (fuel : ℕ) (data : List ℕ) (s : ConnState) (r : ℕ)
    (s2 : ConnState) (hw : winInv s)
    (h : sendLoop fuel data 0 0 s = some (Except.ok (r, s2))) :
    s2.sent_bytes_cnt - s2.delivered_bytes_cnt ≤ windowSz + maxDataSz := by
  have hfin := (sendLoop_winInv fuel data 0 0 s r s2 hw h).1
  omega

theorem window_bound_after_send_witness :
    initState.sent_bytes_cnt - initState.delivered_bytes_cnt ≤ windowSz + maxDataSz :=
  window_bound_after_send 1 [] initState 0 initState
    (by constructor <;> simp [initState]) rfl

theorem sendLoop_no_ack (fuel : ℕ) : ∀ data acc lag s,
    s.inbox = [] → winInv s → lag ≤ maxLag →
    data.length + (maxLag - lag) < fuel →
    ∃ r s2, sendLoop fuel data acc lag s = some (Except.ok (r, s2)) ∧
      acc ≤ r ∧ r ≤ acc + data.length ∧
      r + s.sent_bytes_cnt = acc + s2.sent_bytes_cnt ∧
      s2.delivered_bytes_cnt = s.delivered_bytes_cnt ∧ winInv s2 := by
  induction fuel with
  | zero =>
    intro data acc lag s hinbox hw hlag hmeasure
    omega
  | succ fuel ih =>
    intro data acc lag s hinbox hw hlag hmeasure
    simp only [sendLoop]
    split
    · rename_i hguard
      split
      · rename_i hcond
        have hS1 : winInv (storeSent
            { seq_number := s.sent_bytes_cnt, ack_number := s.received_bytes_cnt,
              data := data.take maxDataSz } (data.take maxDataSz).length
            { s with
                outbox := s.outbox ++
                  [TCPSegment.dump ⟨s.sent_bytes_cnt, s.received_bytes_cnt,
                    data.take maxDataSz⟩],
                sent_bytes_cnt := s.sent_bytes_cnt + (data.take maxDataSz).length }) := by
          refine winInv_carve s s.received_bytes_cnt (data.take maxDataSz) ?_ hw.2 ?_
          · have := hcond.1
            omega
          · rw [List.length_take]
            exact min_le_left _ _
        obtain ⟨s3, hres⟩ := resend_ok _ hS1
        obtain ⟨r1, r2, r3, r4, rwin⟩ := resend_preserves _ _ hres hS1
        obtain ⟨c1, c2, c3, c4⟩ := storeSent_facts
          { seq_number := s.sent_bytes_cnt, ack_number := s.received_bytes_cnt,
            data := data.take maxDataSz } (data.take maxDataSz).length
          { s with
              outbox := s.outbox ++
                [TCPSegment.dump ⟨s.sent_bytes_cnt, s.received_bytes_cnt,
                  data.take maxDataSz⟩],
              sent_bytes_cnt := s.sent_bytes_cnt + (data.take maxDataSz).length }
        have hlen1 : 1 ≤ (data.take maxDataSz).length := by
          rw [List.length_take]
          refine le_min (by decide) ?_
          exact List.length_pos.mpr hcond.2
        have hlen2 : (data.take maxDataSz).length ≤ data.length := by
          rw [List.length_take]
          exact min_le_right _ _
        simp only [send_segment_carve, hres]
        obtain ⟨r, s2, heq, k1, k2, k3, k4, kwin⟩ :=
          ih (data.drop (data.take maxDataSz).length) (acc + (data.take maxDataSz).length)
            lag s3 (by rw [r4, c4]; exact hinbox) rwin hlag
            (by rw [List.length_drop]; omega)
        refine ⟨r, s2, heq, by omega, ?_, ?_, ?_, kwin⟩
        · rw [List.length_drop] at k2
          omega
        · rw [r1, c1] at k3
          simp only at k3
          omega
        · rw [k4, r2, c2]
      · rename_i hcond
        have hrs : receive_segment s = (false, s) := by
          simp only [receive_segment, hinbox]
        rw [hrs]
        obtain ⟨s3, hres⟩ := resend_ok s hw
        obtain ⟨r1, r2, r3, r4, rwin⟩ := resend_preserves _ _ hres hw
        simp only [hres, Bool.false_eq_true, if_false]
        obtain ⟨r, s2, heq, k1, k2, k3, k4, kwin⟩ :=
          ih data acc (lag + 1) s3 (by rw [r4]; exact hinbox) rwin
            (by have := hguard.1; omega) (by have := hguard.1; omega)
        refine ⟨r, s2, heq, k1, k2, ?_, ?_, kwin⟩
        · rw [r1] at k3
          omega
        · rw [k4, r2]
    · exact ⟨acc, s, rfl, le_refl _, by omega, by omega, rfl, hw⟩

/-- Claim C4, amended: on a quiescent connection (`delivered_bytes_cnt =
sent_bytes_cnt`, window invariant holding) with no acknowledgments ever
arriving (every receive attempt times out), `send data` terminates without
raising after at most `max_lag` consecutive timeout cycles and returns a
byte count `r ≤ len(data)`; the count is *strictly* less than `len(data)`
whenever `len(data)` exceeds the `window_sz + max_data_sz` bytes the
window admits — for shorter payloads the call returns exactly `len(data)`,
so the claim's "strictly less for every non-empty data" does not hold. -/
theorem send_unresponsive_partial (data : List ℕ) (s : ConnState)
    (hd : data ≠ []) (hi : s.inbox = [])
    (hq : s.delivered_bytes_cnt = s.sent_bytes_cnt) (hw : winInv s) :
    ∃ r s2, sendLoop (data.length + maxLag + 1) data 0 0 s = some (Except.ok (r, s2)) ∧
      r ≤ data.length ∧ (windowSz + maxDataSz < data.length → r < data.length) := by
  obtain ⟨r, s2, heq, h1, h2, h3, h4, hw2⟩ :=
    sendLoop_no_ack (data.length + maxLag + 1) data 0 0 s hi hw (Nat.zero_le _) (by omega)
  refine ⟨r, s2, heq, by omega, ?_⟩
  intro hbig
  have hb2 := hw2.1
  omega

theorem send_unresponsive_partial_witness :
    ∃ r s2, sendLoop (([1, 2, 3] : List ℕ).length + maxLag + 1) [1, 2, 3] 0 0 initState =
        some (Except.ok (r, s2)) ∧
      r ≤ ([1, 2, 3] : List ℕ).length ∧
      (windowSz + maxDataSz < ([1, 2, 3] : List ℕ).length →
        r < ([1, 2, 3] : List ℕ).length) :=
  send_unresponsive_partial [1, 2, 3] initState (by decide) rfl rfl
    (by constructor <;> simp [initState])

def sentCount (x : Option (Except ConnState (ℕ × ConnState))) : Option ℕ :=
  match x with
  | some (Except.ok p) => some p.1
  | _ => none

/-- Claim C4, counterexample: `send` of the single byte `[0]` on a fresh
connection with no acknowledgments arriving terminates and returns 1 —
the full `len(data)`, not a count strictly less than it: the whole payload
fits in the window, so everything is transmitted before the `max_lag`
timeout cycles run out. -/
theorem send_small_data_sends_all :
    sentCount (sendLoop 66 [0] 0 0 initState) = some 1 := by
  rfl

/-- Instrumented twin of `sendLoop` with the same control flow, recording
the value of the consecutive-timeout counter `lag` at every iteration
that carves and transmits a new segment (the first branch of the loop
body). -/
def sendLoopLags : ℕ → List ℕ → ℕ → ℕ → ConnState → List ℕ
  | 0, _, _, _, _ => []
  | fuel + 1, data, acc, lag, s =>
    if lag < maxLag ∧ (data ≠ [] ∨ s.delivered_bytes_cnt < s.sent_bytes_cnt) then
      if s.sent_bytes_cnt - s.delivered_bytes_cnt ≤ windowSz ∧ data ≠ [] then
        match send_segment
            { seq_number := s.sent_bytes_cnt, ack_number := s.received_bytes_cnt
              data := data.take maxDataSz } s with
        | Except.error _ => [lag]
        | Except.ok p =>
          match resend_first_segment p.2 with
          | Except.error _ => [lag]
          | Except.ok s2 => lag :: sendLoopLags fuel (data.drop p.1) (acc + p.1) lag s2
      else
        match resend_first_segment (receive_segment s).2 with
        | Except.error _ => []
        | Except.ok s2 =>
          sendLoopLags fuel data acc (if (receive_segment s).1 then 0 else lag + 1) s2
    else []

theorem sendLoopLags_zero (fuel : ℕ) : ∀ data acc lag s,
    (lag = 0 ∨ ¬(s.sent_bytes_cnt - s.delivered_bytes_cnt ≤ windowSz ∧ data ≠ [])) →
    ∀ x ∈ sendLoopLags fuel data acc lag s, x = 0 := by
  induction fuel with
  | zero =>
    intro data acc lag s hinv x hx
    simp [sendLoopLags] at hx
  | succ fuel ih =>
    intro data acc lag s hinv x hx
    simp only [sendLoopLags] at hx
    split at hx
    · rename_i hguard
      split at hx
      · rename_i hcond
        have hlag0 : lag = 0 := by
          rcases hinv with h | h
          · exact h
          · exact absurd hcond h
        subst hlag0
        split at hx
        · simp only [List.mem_singleton] at hx
          exact hx
        · split at hx
          · simp only [List.mem_singleton] at hx
            exact hx
          · rcases List.mem_cons.mp hx with rfl | hx2
            · rfl
            · exact ih _ _ _ _ (Or.inl rfl) x hx2
      · rename_i hcond
        split at hx
        · simp at hx
        · rename_i s3 hres
          by_cases hflag : (receive_segment s).1 = true
          · rw [if_pos hflag] at hx
            exact ih _ _ _ _ (Or.inl rfl) x hx
          · rw [Bool.not_eq_true] at hflag
            rw [hflag] at hx
            simp only [Bool.false_eq_true, if_false] at hx
            refine ih _ _ _ _ (Or.inr ?_) x hx
            obtain ⟨e1, e2, -⟩ := receive_false_facts s hflag
            obtain ⟨m1, m2⟩ := resend_mono _ _ hres
            rintro ⟨hc1, hc2⟩
            refine hcond ⟨?_, hc2⟩
            rw [e1] at m1
            rw [e2] at m2
            omega
    · simp at hx

/-- Claim C5: in every iteration of the send loop (started, as `send`
starts it, with `lag = 0`) in which a new segment is carved and
transmitted, the consecutive-timeout counter `lag` equals 0: carving never
happens with accumulated timeouts, because the window can only reopen
through a successfully received acknowledgment, which resets `lag`. -/
theorem send_carve_lag_zero (fuel : ℕ) (data : List ℕ) (acc : ℕ) (s : ConnState) :
    (sendLoopLags fuel data acc 0 s).all (fun x => x == 0) = true := by
  rw [List.all_eq_true]
  intro x hx
  have hx0 := sendLoopLags_zero fuel data acc 0 s (Or.inl rfl) x hx
  simp [hx0]
